import Mathlib

/-!
Shallow embedding of the Orange tabular data container (`Table`/`Domain`,
locking, column remapping, row filters) and of the `Registry` metaclass from
`Orange/util.py`, together with theorems settling the specification claims.

Numeric cells are modelled as `Option ℚ`, with `none` standing for NaN
(the "missing value" sentinel).  Arrays are modelled as a shape (a list of
dimension sizes, as in numpy) together with row-major data.
-/

set_option autoImplicit false

namespace Orange

/-- One cell of a storage block: a numeric value (`none` models NaN) or a
string (for meta columns holding text). -/
inductive Cell where
  | num (v : Option ℚ)
  | str (s : String)
  deriving DecidableEq, Repr

/-- A numpy-style array: a shape (list of dimension sizes) plus row-major
data.  A 1-D array of length n has shape `[n]`; an n×m matrix has shape
`[n, m]`. -/
structure Arr where
  shape : List ℕ
  data : List Cell
  deriving DecidableEq, Repr

/-- Row count of an array: the first entry of its shape. -/
def Arr.rows (a : Arr) : ℕ := a.shape.headD 0

/-- Column count: second shape entry for 2-D arrays, 1 for 1-D arrays. -/
def Arr.cols (a : Arr) : ℕ :=
  match a.shape with
  | [_, m] => m
  | [_] => 1
  | _ => 0

/-- The rows×0 empty block used as the default for missing Y/metas/W. -/
def Arr.empty0 (n : ℕ) : Arr := ⟨[n, 0], []⟩

/-- Column `j` of an array, reading row-major data. -/
def Arr.col (a : Arr) (j : ℕ) : List Cell :=
  (List.range a.rows).map (fun i => a.data.getD (i * a.cols + j) (.num none))

deriving instance DecidableEq for Except

/-- Kind of a variable (column descriptor). -/
inductive VarKind where
  | continuous
  | discrete
  | string
  | time
  deriving DecidableEq, Repr

/-- A column descriptor: name, kind, and (for discrete variables) the ordered
value-label sequence.  Orange equality for discrete variables compares name
and kind only (see `Variable.eqv`); the labels are consulted only at
column-access time. -/
structure Variable where
  name : String
  kind : VarKind
  values : List String
  deriving DecidableEq, Repr

/-- Orange variable equality: name and kind only; two discrete variables with
the same name but different value-label sequences compare equal. -/
def Variable.eqv (a b : Variable) : Bool :=
  a.name = b.name && a.kind = b.kind

/-- A schema: ordered lists of attribute, class and meta variables. -/
structure Domain where
  attributes : List Variable
  class_vars : List Variable
  metas : List Variable
  deriving DecidableEq, Repr

/-- A table: a Domain bound to its storage blocks, plus per-table name and
annotation mapping (an insertion-ordered association list standing for the
Python dict). -/
structure Table where
  domain : Domain
  name : String
  X : Arr
  Y : Arr
  metas : Arr
  W : Arr
  ids : Arr
  attributes : List (String × Cell)
  deriving DecidableEq, Repr

/-- Fresh monotonically-assigned row identifiers starting at `nextId`. -/
def freshIds (nextId n : ℕ) : Arr :=
  ⟨[n], (List.range n).map (fun i => .num (some ((nextId + i : ℕ) : ℚ)))⟩

/-- Modelled from the spec: `Table.from_numpy` (the from-arrays constructor,
§4.2), whose implementation is not part of the sources at hand.  Given a
Domain and arrays, it validates row-count consistency across all provided
arrays and raises a shape-mismatch error otherwise; missing Y/metas/W default
to correctly-shaped empty blocks (zero columns, matching row count); missing
ids are generated as a fresh monotonically-assigned sequence (the process
counter is passed as `nextId`); a missing attributes dict defaults to empty. -/
def from_numpy (nextId : ℕ) (domain : Domain) (X : Arr)
    (Y : Option Arr) (metas : Option Arr) (W : Option Arr)
    (attributes : Option (List (String × Cell)))
    (ids : Option Arr) : Except String Table :=
  let n := X.rows
  let Yv := Y.getD (Arr.empty0 n)
  let Mv := metas.getD (Arr.empty0 n)
  let Wv := W.getD (Arr.empty0 n)
  let idsv := ids.getD (freshIds nextId n)
  if Yv.rows = n ∧ Mv.rows = n ∧ Wv.rows = n ∧ idsv.rows = n then
    .ok ⟨domain, "untitled", X, Yv, Mv, Wv, idsv, attributes.getD []⟩
  else
    .error "Parts of data contain different numbers of rows."

/-- Python-dict single-key assignment on an association list: an existing key
keeps its position and gets the new value; a new key is appended at the end. -/
def dictInsert {α : Type} (d : List (String × α)) (k : String) (v : α) :
    List (String × α) :=
  if d.any (fun p => p.1 = k) then
    d.map (fun p => if p.1 = k then (k, v) else p)
  else
    d ++ [(k, v)]

/-- Python `dict.update`: assign every pair of `upd` in order into `d`. -/
def dictUpdate {α : Type} (d upd : List (String × α)) : List (String × α) :=
  upd.foldl (fun acc p => dictInsert acc p.1 p.2) d

/-- Dict lookup: value of the first entry with the given key. -/
def dictLookup {α : Type} : List (String × α) → String → Option α
  | [], _ => none
  | p :: d, k => if p.1 = k then some p.2 else dictLookup d k

/-- First-of-two choice on options (`Option.orElse` with strict arguments). -/
def orO {α : Type} (a b : Option α) : Option α :=
  match a with
  | some x => some x
  | none => b

/-- Lookup of a key across a sequence of tables' annotation mappings, taking
the value from the first table that carries the key. -/
def firstLookup (ts : List Table) (k : String) : Option Cell :=
  match ts with
  | [] => none
  | t :: rest => orO (dictLookup t.attributes k) (firstLookup rest k)

/-- Row `i` of an array, reading row-major data. -/
def Arr.row (a : Arr) (i : ℕ) : List Cell :=
  (a.data.drop (i * a.cols)).take a.cols

/-- Horizontal stacking of two 2-D blocks with `n` rows. -/
def Arr.hstack2 (n : ℕ) (a b : Arr) : Arr :=
  ⟨[n, a.cols + b.cols],
   (List.range n).flatMap (fun i => a.row i ++ b.row i)⟩

/-- Horizontal stacking of all blocks in a list (n×0 when the list is empty). -/
def Arr.hstackAll (n : ℕ) (as : List Arr) : Arr :=
  as.foldl (Arr.hstack2 n) (Arr.empty0 n)

/-- Append variables of `ys` to `xs`, dropping those already present (Orange
variable equality). -/
def dedupAppend (xs ys : List Variable) : List Variable :=
  ys.foldl (fun acc v => if acc.any (Variable.eqv v) then acc else acc ++ [v]) xs

/-- Modelled from the spec (§4.1 schema merge): attribute, class and meta
variable lists are concatenated in order with duplicates removed. -/
def mergeDomains (ds : List Domain) : Domain :=
  ⟨ds.foldl (fun acc d => dedupAppend acc d.attributes) [],
   ds.foldl (fun acc d => dedupAppend acc d.class_vars) [],
   ds.foldl (fun acc d => dedupAppend acc d.metas) []⟩

/-- The class columns contributed by one table: a 1-D Y is one column, a 2-D
Y contributes its columns in order; an empty block contributes none. -/
def yColumns (a : Arr) : List (List Cell) :=
  match a.shape with
  | [_] => [a.data]
  | [_, m] => (List.range m).map (fun j => a.col j)
  | _ => []

/-- Modelled from the spec (§4.2): the merged Y of a horizontal concatenation;
with more than one class column the result is a stacked 2-D matrix (columns
in merge order), with exactly one it stays 1-D, with none it is the n×0
block. -/
def concatY (n : ℕ) (tables : List Table) : Arr :=
  match tables.flatMap (fun t => yColumns t.Y) with
  | [] => Arr.empty0 n
  | [c] => ⟨[n], c⟩
  | cs => ⟨[n, cs.length],
           (List.range n).flatMap (fun i => cs.map (fun c => c.getD i (.num none)))⟩

/-- Modelled from the spec (§4.2): the weight vector of a horizontal
concatenation is taken from the first input table that actually carries a
non-empty weight vector; if none does, the result is unweighted (n×0). -/
def concatW (n : ℕ) (tables : List Table) : Arr :=
  match tables.find? (fun t => !t.W.data.isEmpty) with
  | some t => t.W
  | none => Arr.empty0 n

/-- Modelled from the spec (§4.2): the result's name is the first non-default
name among the inputs, in input order. -/
def concatName (tables : List Table) : String :=
  match tables.find? (fun t => t.name ≠ "untitled") with
  | some t => t.name
  | none => "untitled"

/-- Modelled from the spec (§4.2 concatenation) with the per-key precedence
fixed by the repository test `TestTableInit.test_concatenate_horizontal`
(src/Orange/data/tests/test_table.py:181): the merged annotation mapping is
built by dict-updating with each table's `attributes` from the LAST table to
the FIRST, so when a key occurs in several tables the earliest table's value
prevails (the test requires key "a" to keep the first table's value 5, not
the last table's value 1). -/
def concatAttributes (tables : List Table) : List (String × Cell) :=
  tables.reverse.foldl (fun acc t => dictUpdate acc t.attributes) []

/-- The attributes merge exactly as the spec sentence words it ("merged
left-to-right with later tables' values overwriting earlier ones,
last-writer-wins per key"), written for comparison with `concatAttributes`. -/
def concatAttributesClaim (tables : List Table) : List (String × Cell) :=
  tables.foldl (fun acc t => dictUpdate acc t.attributes) []

/-- Modelled from the spec (§4.2): horizontal (axis=1) concatenation of a
non-empty sequence of tables: domains merged by the schema algebra, X and
metas horizontally stacked, Y stacked per `concatY`, row ids taken from the
first input, weights per `concatW`, name per `concatName`, annotations per
`concatAttributes`.  Concatenating zero tables is an error. -/
def concatenate_horizontal (tables : List Table) : Except String Table :=
  match tables with
  | [] => .error "need at least one table to concatenate"
  | t0 :: _ =>
    let n := t0.X.rows
    .ok ⟨mergeDomains (tables.map Table.domain),
         concatName tables,
         Arr.hstackAll n (tables.map Table.X),
         concatY n tables,
         Arr.hstackAll n (tables.map Table.metas),
         concatW n tables,
         t0.ids,
         concatAttributes tables⟩

/-! Locking controller.  A buffer carries its contents, its numpy
writeable flag, an allocation identifier for its memory, and the allocation
identifier of its base when it is a view into another array (`none` means the
buffer owns its memory). -/

/-- Identifier of one of the four storage buffers of a table. -/
inductive BufId where
  | x | y | m | w
  deriving DecidableEq, Repr, Fintype

/-- A storage buffer with lock/ownership bookkeeping. -/
structure Buffer where
  data : List Cell
  writeable : Bool
  base : Option ℕ
  allocId : ℕ
  deriving DecidableEq, Repr

/-- A table as seen by the locking controller: its four storage buffers. -/
structure LTable where
  X : Buffer
  Y : Buffer
  metas : Buffer
  W : Buffer
  deriving DecidableEq, Repr

/-- Select a buffer by identifier. -/
def LTable.get (t : LTable) : BufId → Buffer
  | .x => t.X
  | .y => t.Y
  | .m => t.metas
  | .w => t.W

/-- Replace a buffer by identifier. -/
def LTable.put (t : LTable) : BufId → Buffer → LTable
  | .x, b => ⟨b, t.Y, t.metas, t.W⟩
  | .y, b => ⟨t.X, b, t.metas, t.W⟩
  | .m, b => ⟨t.X, t.Y, b, t.W⟩
  | .w, b => ⟨t.X, t.Y, t.metas, b⟩

/-- Set only the writeable flag of one buffer. -/
def LTable.setWriteable (t : LTable) (b : BufId) (v : Bool) : LTable :=
  t.put b ⟨(t.get b).data, v, (t.get b).base, (t.get b).allocId⟩

/-- Modelled from the spec (§4.3, §5): element assignment into a buffer; numpy
raises ValueError when the destination array is not writeable. -/
def writeCell (t : LTable) (b : BufId) (i : ℕ) (v : Cell) : Except String LTable :=
  if (t.get b).writeable then
    .ok (t.put b ⟨(t.get b).data.set i v, true, (t.get b).base, (t.get b).allocId⟩)
  else
    .error "assignment destination is read-only"

/-- Modelled from the spec (§4.3): reassignment of a whole buffer
(`tab.X = arr`), permitted only while that buffer is unlocked. -/
def setBuf (t : LTable) (b : BufId) (newBuf : Buffer) : Except String LTable :=
  if (t.get b).writeable then .ok (t.put b newBuf)
  else .error "Table is read-only unless unlocked"

/-- Buffers named in an unlocked request; naming none means all four. -/
def bufList (bufs : List BufId) : List BufId :=
  if bufs.isEmpty then [.x, .y, .m, .w] else bufs

/-- Modelled from the spec (§4.3 `unlocked` / `force_unlocked`): a scoped
unlock.  On entry, unless forced, a named buffer that is read-only and is a
view (its base is not separately unlockable) makes the whole call fail before
any flag is touched; otherwise the named buffers are marked writable, the body
runs, and on exit each named buffer's writeable flag is restored to its value
on entry (so a buffer already unlocked on entry is not prematurely re-locked).
The result pairs the final table with the raised error, if any. -/
def unlockedDo (force : Bool) (bufs : List BufId)
    (body : LTable → LTable × Option String) (t : LTable) :
    LTable × Option String :=
  let bs := bufList bufs
  if !force && bs.any (fun b => !(t.get b).writeable && (t.get b).base.isSome) then
    (t, some "the table is a view into another table and cannot be unlocked")
  else
    let prev := bs.map (fun b => (b, (t.get b).writeable))
    let t1 := bs.foldl (fun s b => s.setWriteable b true) t
    let r := body t1
    (prev.foldl (fun s p => s.setWriteable p.1 p.2) r.1, r.2)

/-- Element write as a scope body: on failure the state is unchanged and the
error is recorded. -/
def tryWrite (b : BufId) (i : ℕ) (v : Cell) (t : LTable) : LTable × Option String :=
  match writeCell t b i v with
  | .ok t2 => (t2, none)
  | .error e => (t, some e)

/-! Serialization of a table (§4.3, §6). -/

/-- The serialized form of a table: buffer contents only; lock state and view
structure are not serialized. -/
structure PickleBlob where
  xData : List Cell
  yData : List Cell
  mData : List Cell
  wData : List Cell
  deriving DecidableEq, Repr

/-- Modelled from the spec (§6): pickling stores the buffer contents. -/
def pickleT (t : LTable) : PickleBlob :=
  ⟨t.X.data, t.Y.data, t.metas.data, t.W.data⟩

/-- Modelled from the spec (§4.3, §6): unpickling materializes each buffer
into a freshly allocated, independently owned array (no base), and
initializes the lock state from the process-wide LOCKING default in force at
unpickling time (`locking`); `fresh` is the next unused allocation
identifier of the process. -/
def unpickleT (locking : Bool) (fresh : ℕ) (blob : PickleBlob) : LTable :=
  ⟨⟨blob.xData, !locking, none, fresh⟩,
   ⟨blob.yData, !locking, none, fresh + 1⟩,
   ⟨blob.mData, !locking, none, fresh + 2⟩,
   ⟨blob.wData, !locking, none, fresh + 3⟩⟩

/-- Allocation identifiers of the memory reachable from a buffer: its own
allocation and, when it is a view, its base's. -/
def Buffer.memIds (bf : Buffer) : List ℕ :=
  bf.allocId :: bf.base.toList

/-- Allocation identifiers of all memory reachable from a table's buffers. -/
def LTable.memIds (t : LTable) : List ℕ :=
  t.X.memIds ++ t.Y.memIds ++ t.metas.memIds ++ t.W.memIds

/-! Column access with discrete value-set remapping (§4.4). -/

/-- Index of the first occurrence of a label in a value-label sequence. -/
def idxOf? (lab : String) : List String → Option ℕ
  | [] => none
  | v :: rest => if v = lab then some 0 else (idxOf? lab rest).map Nat.succ

/-- Modelled from the spec (§4.4): the per-code lookup built from matching
labels: a stored integer code is sent to the index of the same label in the
requested value sequence; a code whose label is absent from the requested
sequence, and the missing value, map to the missing sentinel `none`. -/
def mapCode (storedVals reqVals : List String) (c : Option ℕ) : Option ℕ :=
  c.bind (fun code => (storedVals.get? code).bind (fun lab => idxOf? lab reqVals))

/-- Elementwise application of the code lookup to a column. -/
def remapColumn (storedVals reqVals : List String) (col : List (Option ℕ)) :
    List (Option ℕ) :=
  col.map (mapCode storedVals reqVals)

/-- Backing of one discrete column: dense codes, or sparse row entries with an
implicit code 0 for absent rows. -/
inductive ColBacking where
  | dense (col : List (Option ℕ))
  | sparse (n : ℕ) (entries : List (ℕ × Option ℕ))
  deriving DecidableEq, Repr

/-- Dense 1-D view of a backing (sparse columns are transparently densified
on single-column extraction, §4.4). -/
def ColBacking.densify : ColBacking → List (Option ℕ)
  | .dense col => col
  | .sparse n entries =>
    (List.range n).map (fun i =>
      match entries.find? (fun p => p.1 = i) with
      | some p => p.2
      | none => some 0)

/-- Modelled from the spec (§4.4): `get_column` restricted to a stored
discrete variable.  The first component is the column; the second is true
when the column is a fresh, independently owned array rather than a view into
the backing.  When the requested value-label sequence equals the stored one,
dense access returns a view; sparse access densifies (fresh).  When the
sequences differ, the stored codes are remapped, which always forces a fresh
copy, for dense and sparse backing alike. -/
def getColumnDiscrete (storedVals reqVals : List String) (backing : ColBacking) :
    List (Option ℕ) × Bool :=
  if reqVals = storedVals then
    (backing.densify,
     match backing with
     | .dense _ => false
     | .sparse _ _ => true)
  else
    (remapColumn storedVals reqVals backing.densify, true)

/-! Row filter engine (§4.5). -/

/-- Comparison operators of `FilterContinuous`. -/
inductive FCOp where
  | equal | notEqual | less | lessEqual | greater | greaterEqual
  | between | outside | isDefinedOp
  deriving DecidableEq, Repr

/-- Modelled from the spec (§4.5 `FilterContinuous`): whether one cell value
satisfies the comparison against reference values `ref` (and `rmax` for the
two-reference operators).  `none` models NaN: it is treated as missing and
satisfies no comparison, and it fails the IsDefined check. -/
def fcMatch (op : FCOp) (ref rmax : ℚ) (v : Option ℚ) : Bool :=
  match v with
  | none => false
  | some q =>
    match op with
    | .equal => decide (q = ref)
    | .notEqual => decide (q ≠ ref)
    | .less => decide (q < ref)
    | .lessEqual => decide (q ≤ ref)
    | .greater => decide (ref < q)
    | .greaterEqual => decide (ref ≤ q)
    | .between => decide (ref ≤ q ∧ q ≤ rmax)
    | .outside => decide (¬(ref ≤ q ∧ q ≤ rmax))
    | .isDefinedOp => true

/-- Indices of the rows of a column selected by a per-cell predicate. -/
def selectRows (p : Option ℚ → Bool) (col : List (Option ℚ)) : List ℕ :=
  (List.range col.length).filter (fun i => p (col.getD i none))

/-- A discrete membership predicate: the (optional) name of the target
variable and the list of accepted value labels.  Constructing it needs no
table; it is validated only at apply time. -/
structure FilterDiscreteP where
  column : Option String
  accepted : List String
  deriving DecidableEq, Repr

/-- Find a variable by name across the three roles of a domain, paired with
the block holding it (0 = X, 1 = Y, 2 = metas) and its column index there. -/
def findVar (d : Domain) (nm : String) : Option (Variable × ℕ × ℕ) :=
  match d.attributes.enum.find? (fun p => p.2.name = nm) with
  | some p => some (p.2, 0, p.1)
  | none =>
    match d.class_vars.enum.find? (fun p => p.2.name = nm) with
    | some p => some (p.2, 1, p.1)
    | none =>
      match d.metas.enum.find? (fun p => p.2.name = nm) with
      | some p => some (p.2, 2, p.1)
      | none => none

/-- The block of a table storing a resolved variable. -/
def blockOf (t : Table) : ℕ → Arr
  | 0 => t.X
  | 1 => t.Y
  | _ => t.metas

/-- Modelled from the spec (§4.5, §7(d)): applying a `FilterDiscrete`
predicate resolves its target variable at apply time and returns the indices
of the rows whose coded value lies in the accepted set.  A predicate whose
column is `none` has no discrete variable to resolve — per the repository
test `TestTableFilters.test_row_filter_no_discrete` this raises ValueError
even when the domain does contain discrete variables — and a column that
resolves to a non-discrete variable is a filter-applicability error. -/
def applyFilterDiscrete (f : FilterDiscreteP) (t : Table) :
    Except String (List ℕ) :=
  match f.column with
  | none => .error "Invalid filter"
  | some nm =>
    match findVar t.domain nm with
    | none => .error "variable is not in the domain"
    | some (v, blk, j) =>
      match v.kind with
      | .discrete =>
        let codes := (f.accepted.filterMap (fun lab => idxOf? lab v.values))
        let col := (blockOf t blk).col j
        .ok ((List.range t.X.rows).filter (fun i =>
          codes.any (fun c => col.getD i (.num none) = .num (some (c : ℚ)))))
      | _ => .error "filter is not applicable to the variable kind"

/-! The `Registry` metaclass (src/Orange/util.py:403-419). -/

/-- State of the process after some classes with the `Registry` metaclass
have been defined: the shared registry mapping (none before any class
exists — `hasattr(cls, 'registry')` fails only for the first class), the
next class identifier, and the identifier of the root class. -/
structure RegState where
  registry : Option (List (String × ℕ))
  nextCls : ℕ
  rootId : Option ℕ
  deriving DecidableEq, Repr

/-- Embeds `Registry.__new__`: the class object is created; if it does not
inherit a `registry` attribute (the first class — the root) it gets a fresh
empty registry and is not recorded in it; otherwise the new class is stored
in the shared registry under its class name. -/
def regNew (s : RegState) (name : String) : RegState :=
  match s.registry with
  | none => ⟨some [], s.nextCls + 1, some s.nextCls⟩
  | some reg => ⟨some (dictInsert reg name s.nextCls), s.nextCls + 1, s.rootId⟩

/-- The registry state after defining the given classes in order, starting
from a process with no `Registry`-metaclass class yet. -/
def regRun (names : List String) : RegState :=
  names.foldl regNew ⟨none, 0, none⟩

/-- Embeds `Registry.__iter__`: iterating a class yields the keys of the
shared registry in insertion order. -/
def regIter (s : RegState) : List String :=
  (s.registry.getD []).map Prod.fst

/-- The names of a list of classes paired with consecutive class identifiers
starting at `n` (the registry contents produced by defining them in order). -/
def tagFrom (n : ℕ) : List String → List (String × ℕ)
  | [] => []
  | s :: rest => (s, n) :: tagFrom (n + 1) rest

/-! Concrete inputs used by witnesses and counterexamples. -/

/-- A concrete domain: one continuous attribute, one discrete class, one
string meta. -/
def wDom : Domain :=
  ⟨[⟨"a", .continuous, []⟩], [⟨"e", .discrete, ["no", "yes"]⟩], [⟨"s", .string, []⟩]⟩

/-- A concrete 2×1 feature block. -/
def wX : Arr := ⟨[2, 1], [.num (some 1), .num (some 2)]⟩

/-- A concrete length-2 class vector. -/
def wY : Arr := ⟨[2], [.num (some 0), .num (some 1)]⟩

/-- A concrete 2×1 meta block. -/
def wM : Arr := ⟨[2, 1], [.str "a", .str "b"]⟩

/-- A concrete length-2 weight vector. -/
def wW : Arr := ⟨[2], [.num (some (1/2)), .num (some 1)]⟩

/-- Concrete row identifiers. -/
def wIds : Arr := ⟨[2], [.num (some 100), .num (some 101)]⟩

/-- A continuous variable with the given name. -/
def cvar (nm : String) : Variable := ⟨nm, .continuous, []⟩

/-- A concrete table for the locking controller: all four buffers locked,
each owning its memory. -/
def cLockedTab : LTable :=
  ⟨⟨[.num (some 1)], false, none, 0⟩,
   ⟨[.num (some 2)], false, none, 1⟩,
   ⟨[.num (some 3)], false, none, 2⟩,
   ⟨[], false, none, 3⟩⟩

/-- A concrete table whose Y buffer is a locked view into another allocation
(as after `tab.Y = np.arange(10)[:5]` in `test_force_unlocking`). -/
def cViewTab : LTable :=
  ⟨⟨[.num (some 1)], false, none, 0⟩,
   ⟨[.num (some 2)], false, some 10, 1⟩,
   ⟨[.num (some 3)], false, none, 2⟩,
   ⟨[], false, none, 3⟩⟩

/-- A concrete replacement buffer. -/
def cNewBuf : Buffer := ⟨[.num (some 9)], true, none, 50⟩

/-- Concrete table mirroring `tab1` of `test_concatenate_horizontal`
(two attributes, one class, no metas, annotations a=5, b=7, no weights). -/
def ctab1 : Table :=
  ⟨⟨[cvar "a", cvar "b"], [cvar "c"], []⟩, "untitled",
   ⟨[2, 2], [.num (some 0), .num (some 1), .num (some 2), .num (some 3)]⟩,
   ⟨[2], [.num (some 100), .num (some 101)]⟩,
   Arr.empty0 2, Arr.empty0 2,
   ⟨[2], [.num (some 0), .num (some 1)]⟩,
   [("a", .num (some 5)), ("b", .num (some 7))]⟩

/-- Concrete table mirroring `tab2` of `test_concatenate_horizontal`
(one attribute, one class, non-empty weights, no annotations). -/
def ctab2 : Table :=
  ⟨⟨[cvar "d"], [cvar "e"], []⟩, "untitled",
   ⟨[2, 1], [.num (some 10), .num (some 11)]⟩,
   ⟨[2], [.num (some 102), .num (some 103)]⟩,
   Arr.empty0 2,
   ⟨[2], [.num (some 0), .num (some 1)]⟩,
   ⟨[2], [.num (some 2), .num (some 3)]⟩, []⟩

/-- Concrete table mirroring `tab3` of `test_concatenate_horizontal`
(two attributes, no classes, non-empty weights, annotations a=1, c=4). -/
def ctab3 : Table :=
  ⟨⟨[cvar "f", cvar "g"], [], []⟩, "untitled",
   ⟨[2, 2], [.num (some 20), .num (some 21), .num (some 22), .num (some 23)]⟩,
   Arr.empty0 2, Arr.empty0 2,
   ⟨[2], [.num (some 5), .num (some 6)]⟩,
   ⟨[2], [.num (some 4), .num (some 5)]⟩,
   [("a", .num (some 1)), ("c", .num (some 4))]⟩

end Orange

namespace Orange

@[simp] theorem Arr.rows_empty0 (n : ℕ) : (Arr.empty0 n).rows = n := rfl

@[simp] theorem rows_freshIds (nextId n : ℕ) : (freshIds nextId n).rows = n := rfl

@[simp] theorem shape_freshIds (nextId n : ℕ) : (freshIds nextId n).shape = [n] := rfl

/-- C1: for every Domain and arrays X, Y, metas, W, ids whose row counts all
match, the table built by the from-arrays constructor has .X, .Y, .metas, .W
and .ids equal to the given inputs exactly; when Y, metas, W and ids are
omitted, the returned table still has a row-count-length ids vector and
correctly-shaped empty blocks; and supplying any array with a mismatched row
count raises an error. -/
theorem from_numpy_spec (nextId : ℕ) (dom : Domain) (X Y M W ids : Arr)
    (attrs : List (String × Cell))
    (hY : Y.rows = X.rows) (hM : M.rows = X.rows) (hW : W.rows = X.rows)
    (hI : ids.rows = X.rows) :
    (∃ t, from_numpy nextId dom X (some Y) (some M) (some W) (some attrs) (some ids)
        = .ok t ∧ t.X = X ∧ t.Y = Y ∧ t.metas = M ∧ t.W = W ∧ t.ids = ids)
    ∧ (∃ t, from_numpy nextId dom X none none none none none = .ok t
        ∧ t.X = X ∧ t.ids.shape = [X.rows] ∧ t.Y = Arr.empty0 X.rows
        ∧ t.metas = Arr.empty0 X.rows ∧ t.W = Arr.empty0 X.rows)
    ∧ (∀ B : Arr, B.rows ≠ X.rows →
        (∃ e, from_numpy nextId dom X (some B) (some M) (some W) (some attrs) (some ids)
            = .error e)
        ∧ (∃ e, from_numpy nextId dom X (some Y) (some B) (some W) (some attrs) (some ids)
            = .error e)
        ∧ (∃ e, from_numpy nextId dom X (some Y) (some M) (some B) (some attrs) (some ids)
            = .error e)
        ∧ (∃ e, from_numpy nextId dom X (some Y) (some M) (some W) (some attrs) (some B)
            = .error e)) := by
  refine ⟨?_, ?_, ?_⟩
  · refine ⟨⟨dom, "untitled", X, Y, M, W, ids, attrs⟩, ?_, rfl, rfl, rfl, rfl, rfl⟩
    simp [from_numpy, hY, hM, hW, hI]
  · refine ⟨⟨dom, "untitled", X, Arr.empty0 X.rows, Arr.empty0 X.rows,
      Arr.empty0 X.rows, freshIds nextId X.rows, []⟩, ?_, rfl, rfl, rfl, rfl, rfl⟩
    simp [from_numpy]
  · intro B hB
    refine ⟨⟨"Parts of data contain different numbers of rows.", ?_⟩,
      ⟨"Parts of data contain different numbers of rows.", ?_⟩,
      ⟨"Parts of data contain different numbers of rows.", ?_⟩,
      ⟨"Parts of data contain different numbers of rows.", ?_⟩⟩ <;>
      simp [from_numpy, hY, hM, hW, hI, hB]

/-- Witness for C1 at concrete inputs. -/
theorem from_numpy_spec_witness :
    ∃ t, from_numpy 0 wDom wX (some wY) (some wM) (some wW) (some []) (some wIds)
        = .ok t ∧ t.X = wX ∧ t.Y = wY ∧ t.metas = wM ∧ t.W = wW ∧ t.ids = wIds :=
  (from_numpy_spec 0 wDom wX wY wM wW wIds [] rfl rfl rfl rfl).1

theorem orO_none {α : Type} (a : Option α) : orO a none = a := by
  cases a <;> rfl

theorem orO_assoc {α : Type} (a b c : Option α) :
    orO (orO a b) c = orO a (orO b c) := by
  cases a <;> rfl

theorem dictLookup_append_single {α : Type} (l : List (String × α))
    (p : String × α) (k : String) :
    dictLookup (l ++ [p]) k
      = orO (dictLookup l k) (if p.1 = k then some p.2 else none) := by
  induction l with
  | nil => simp [dictLookup, orO]
  | cons q rest ih =>
    by_cases hq : q.1 = k <;> simp [dictLookup, hq, ih, orO]

theorem dictLookup_eq_none_of_any_false {α : Type} (d : List (String × α))
    (k : String) (h : d.any (fun p => p.1 = k) = false) :
    dictLookup d k = none := by
  induction d with
  | nil => rfl
  | cons q rest ih =>
    simp only [List.any_cons, Bool.or_eq_false_iff] at h
    have hq : ¬(q.1 = k) := by simpa using h.1
    simp [dictLookup, hq, ih h.2]

theorem dictLookup_map_set_ne {α : Type} (d : List (String × α))
    (k : String) (v : α) (k2 : String) (h : k2 ≠ k) :
    dictLookup (d.map (fun p => if p.1 = k then (k, v) else p)) k2
      = dictLookup d k2 := by
  induction d with
  | nil => rfl
  | cons q rest ih =>
    by_cases hq : q.1 = k
    · have h1 : ¬(k = k2) := fun he => h he.symm
      have h2 : ¬(q.1 = k2) := by rw [hq]; exact h1
      simp [dictLookup, hq, h1, h2, ih]
    · simp only [List.map_cons, if_neg hq]
      by_cases hk2 : q.1 = k2 <;> simp [dictLookup, hk2, ih]

theorem dictLookup_map_set_self {α : Type} (d : List (String × α))
    (k : String) (v : α) (h : d.any (fun p => p.1 = k) = true) :
    dictLookup (d.map (fun p => if p.1 = k then (k, v) else p)) k = some v := by
  induction d with
  | nil => simp at h
  | cons q rest ih =>
    by_cases hq : q.1 = k
    · simp [dictLookup, hq]
    · simp only [List.any_cons, Bool.or_eq_true] at h
      have h2 : rest.any (fun p => p.1 = k) = true := by
        rcases h with h | h
        · exact absurd (by simpa using h) hq
        · exact h
      simp [dictLookup, hq, ih h2]

theorem dictLookup_dictInsert {α : Type} (d : List (String × α))
    (k : String) (v : α) (k2 : String) :
    dictLookup (dictInsert d k v) k2
      = if k = k2 then some v else dictLookup d k2 := by
  unfold dictInsert
  by_cases hany : d.any (fun p => p.1 = k) = true
  · rw [if_pos hany]
    by_cases hk : k = k2
    · subst hk
      rw [dictLookup_map_set_self d k v hany, if_pos rfl]
    · rw [dictLookup_map_set_ne d k v k2 (fun he => hk he.symm), if_neg hk]
  · rw [if_neg hany, dictLookup_append_single]
    by_cases hk : k = k2
    · subst hk
      rw [dictLookup_eq_none_of_any_false d k (Bool.eq_false_iff.mpr hany)]
      simp [orO]
    · simp [orO_none, hk]

theorem dictLookup_dictUpdate {α : Type} (d upd : List (String × α))
    (k : String) :
    dictLookup (dictUpdate d upd) k
      = orO (dictLookup upd.reverse k) (dictLookup d k) := by
  induction upd generalizing d with
  | nil => simp [dictUpdate, dictLookup, orO]
  | cons p rest ih =>
    show dictLookup (dictUpdate (dictInsert d p.1 p.2) rest) k = _
    rw [ih, List.reverse_cons, dictLookup_append_single, dictLookup_dictInsert]
    cases dictLookup rest.reverse k with
    | some x => simp [orO]
    | none => by_cases hp : p.1 = k <;> simp [orO, hp]

theorem dictLookup_not_mem_keys {α : Type} (d : List (String × α))
    (k : String) (h : k ∉ d.map Prod.fst) : dictLookup d k = none := by
  induction d with
  | nil => rfl
  | cons q rest ih =>
    simp only [List.map_cons, List.mem_cons] at h
    push_neg at h
    have hq : ¬(q.1 = k) := fun he => h.1 he.symm
    simp [dictLookup, hq, ih h.2]

theorem dictLookup_reverse_of_nodup {α : Type} (d : List (String × α))
    (k : String) (h : (d.map Prod.fst).Nodup) :
    dictLookup d.reverse k = dictLookup d k := by
  induction d with
  | nil => rfl
  | cons q rest ih =>
    simp only [List.map_cons, List.nodup_cons] at h
    rw [List.reverse_cons, dictLookup_append_single, ih h.2]
    by_cases hq : q.1 = k
    · rw [dictLookup_not_mem_keys rest k (by rw [← hq]; exact h.1)]
      simp [dictLookup, orO, hq]
    · simp [dictLookup, orO_none, hq]

theorem dictLookup_concat_fold (ts : List Table)
    (init : List (String × Cell)) (k : String)
    (hnd : ∀ s ∈ ts, (s.attributes.map Prod.fst).Nodup) :
    dictLookup (ts.reverse.foldl (fun acc t => dictUpdate acc t.attributes) init) k
      = orO (firstLookup ts k) (dictLookup init k) := by
  induction ts generalizing init with
  | nil => simp [firstLookup, orO]
  | cons t0 rest ih =>
    rw [List.reverse_cons, List.foldl_append]
    simp only [List.foldl_cons, List.foldl_nil]
    rw [dictLookup_dictUpdate,
        dictLookup_reverse_of_nodup _ _ (hnd t0 (List.mem_cons_self t0 rest)),
        ih init (fun s hs => hnd s (List.mem_cons_of_mem t0 hs))]
    show orO (dictLookup t0.attributes k) (orO (firstLookup rest k) (dictLookup init k))
      = orO (firstLookup (t0 :: rest) k) (dictLookup init k)
    rw [show firstLookup (t0 :: rest) k
        = orO (dictLookup t0.attributes k) (firstLookup rest k) from rfl,
      orO_assoc]

/-- C5 counterexample: at the concrete input of
`TestTableInit.test_concatenate_horizontal` (annotations a=5, b=7 on the
first table and a=1, c=4 on the third), the concatenation required by the
repository's test keeps the FIRST table's value for key "a" (5), while the
claimed left-to-right last-writer-wins merge would give the third table's
value (1); the two mappings differ. -/
theorem concat_attributes_lastwins_counterexample :
    (concatenate_horizontal [ctab1, ctab2, ctab3]).map
        (fun t => dictLookup t.attributes "a") = .ok (some (.num (some 5)))
    ∧ dictLookup (concatAttributesClaim [ctab1, ctab2, ctab3]) "a"
        = some (.num (some 1))
    ∧ (concatenate_horizontal [ctab1, ctab2, ctab3]).map Table.attributes
        ≠ .ok (concatAttributesClaim [ctab1, ctab2, ctab3]) := by
  refine ⟨?_, ?_, ?_⟩ <;> decide

/-- C5 amended: for horizontal concatenation of any sequence of tables (with
well-formed annotation dicts, i.e. no duplicate keys within one table), the
result's attributes mapping merges the inputs' dicts with the EARLIEST
table's value winning for each key: every key is mapped to the value it has
in the first input table that carries it. -/
theorem concat_attributes_first_wins (ts : List Table) (k : String)
    (hnd : ∀ s ∈ ts, (s.attributes.map Prod.fst).Nodup) :
    dictLookup (concatAttributes ts) k = firstLookup ts k
    ∧ ∀ t, concatenate_horizontal ts = .ok t →
        dictLookup t.attributes k = firstLookup ts k := by
  have hmain : dictLookup (concatAttributes ts) k = firstLookup ts k := by
    rw [show concatAttributes ts
        = ts.reverse.foldl (fun acc t => dictUpdate acc t.attributes) [] from rfl,
      dictLookup_concat_fold ts [] k hnd]
    exact orO_none _
  refine ⟨hmain, fun t ht => ?_⟩
  cases ts with
  | nil => exact absurd ht (by simp [concatenate_horizontal])
  | cons t0 rest =>
    have : t.attributes = concatAttributes (t0 :: rest) := by
      simp only [concatenate_horizontal] at ht
      cases ht
      rfl
    rw [this]
    exact hmain

/-- Witness for C5's amended statement at the test's concrete tables. -/
theorem concat_attributes_first_wins_witness :
    dictLookup (concatAttributes [ctab1, ctab2, ctab3]) "a"
      = firstLookup [ctab1, ctab2, ctab3] "a" :=
  (concat_attributes_first_wins [ctab1, ctab2, ctab3] "a" (by decide)).1

/-- C6: the weight vector of a horizontal concatenation equals the weight
vector of the first input table (in input order) whose W is non-empty, even
when that table is not the first input; inputs with empty weights before it
are skipped. -/
theorem concat_w_first_nonempty (ts : List Table) (tw : Table)
    (h0 : ts ≠ [])
    (hfind : ts.find? (fun s => !s.W.data.isEmpty) = some tw) :
    (concatenate_horizontal ts).map Table.W = .ok tw.W
    ∧ tw ∈ ts ∧ tw.W.data ≠ [] := by
  cases ts with
  | nil => exact absurd rfl h0
  | cons t0 rest =>
    refine ⟨?_, List.mem_of_find?_eq_some hfind, ?_⟩
    · simp only [concatenate_horizontal, Except.map]
      simp [concatW, hfind]
    · have := List.find?_some hfind
      simpa using this

/-- Witness for C6: with empty weights on the first table and non-empty
weights on the second and third, the result's W is the second table's. -/
theorem concat_w_first_nonempty_witness :
    (concatenate_horizontal [ctab1, ctab2, ctab3]).map Table.W = .ok ctab2.W
    ∧ ctab2 ∈ [ctab1, ctab2, ctab3] ∧ ctab2.W.data ≠ [] :=
  concat_w_first_nonempty [ctab1, ctab2, ctab3] ctab2 (by decide) (by decide)

theorem get_put_same (t : LTable) (b : BufId) (buf : Buffer) :
    (t.put b buf).get b = buf := by
  cases b <;> rfl

theorem get_put_other (t : LTable) (b b2 : BufId) (buf : Buffer) (h : b ≠ b2) :
    (t.put b buf).get b2 = t.get b2 := by
  cases b <;> cases b2 <;> first | rfl | exact absurd rfl h

theorem get_setWriteable_same (t : LTable) (b : BufId) (v : Bool) :
    (t.setWriteable b v).get b
      = ⟨(t.get b).data, v, (t.get b).base, (t.get b).allocId⟩ := by
  unfold LTable.setWriteable
  exact get_put_same t b _

theorem get_setWriteable_other (t : LTable) (b b2 : BufId) (v : Bool)
    (h : b ≠ b2) : (t.setWriteable b v).get b2 = t.get b2 := by
  unfold LTable.setWriteable
  exact get_put_other t b b2 _ h

theorem get_foldl_setW_not_mem (bs : List BufId) (t : LTable) (b : BufId)
    (h : b ∉ bs) :
    ((bs.foldl (fun s b2 => s.setWriteable b2 true) t).get b) = t.get b := by
  induction bs generalizing t with
  | nil => rfl
  | cons c rest ih =>
    simp only [List.foldl_cons]
    have hcb : c ≠ b := fun he => h (he ▸ List.mem_cons_self c rest)
    rw [ih _ (fun hr => h (List.mem_cons_of_mem c hr)),
      get_setWriteable_other t c b true hcb]

theorem get_foldl_setW_mem (bs : List BufId) (t : LTable) (b : BufId)
    (hmem : b ∈ bs) :
    ((bs.foldl (fun s b2 => s.setWriteable b2 true) t).get b).writeable = true := by
  induction bs generalizing t with
  | nil => cases hmem
  | cons c rest ih =>
    simp only [List.foldl_cons]
    by_cases hb : b ∈ rest
    · exact ih _ hb
    · have hbc : b = c := by
        rcases List.mem_cons.mp hmem with h | h
        · exact h
        · exact absurd h hb
      subst hbc
      rw [get_foldl_setW_not_mem rest _ b hb, get_setWriteable_same]

/-- C2: with locking enabled (the default state: all buffers read-only and
owning their memory), a direct element write and a buffer reassignment to
any of X, Y, metas, W raise outside an unlocked scope; the same element
write inside an `unlocked` scope covering that buffer succeeds; and after
the scope exits the write raises again. -/
theorem tables_are_locked (t : LTable) (b : BufId) (i : ℕ) (v : Cell)
    (nb : Buffer)
    (hlocked : ∀ b2, (t.get b2).writeable = false)
    (hown : ∀ b2, (t.get b2).base = none) :
    (∃ e, writeCell t b i v = .error e)
    ∧ (∃ e, setBuf t b nb = .error e)
    ∧ (unlockedDo false [b] (tryWrite b i v) t).2 = none
    ∧ (∃ e, writeCell (unlockedDo false [b] (tryWrite b i v) t).1 b i v
        = .error e) := by
  have hW := hlocked b
  have hB := hown b
  have hcond : (([b] : List BufId).any
      (fun b2 => !(t.get b2).writeable && (t.get b2).base.isSome)) = false := by
    simp [hB]
  have hget1 : ((t.setWriteable b true).get b).writeable = true := by
    rw [get_setWriteable_same]
  have htry : tryWrite b i v (t.setWriteable b true)
      = ((t.setWriteable b true).put b
          ⟨((t.setWriteable b true).get b).data.set i v, true,
           ((t.setWriteable b true).get b).base,
           ((t.setWriteable b true).get b).allocId⟩, none) := by
    simp [tryWrite, writeCell, hget1]
  have hunfold : unlockedDo false [b] (tryWrite b i v) t
      = (((tryWrite b i v (t.setWriteable b true)).1).setWriteable b
          (t.get b).writeable,
         (tryWrite b i v (t.setWriteable b true)).2) := by
    simp [unlockedDo, bufList, hcond]
  refine ⟨⟨"assignment destination is read-only", ?_⟩,
    ⟨"Table is read-only unless unlocked", ?_⟩, ?_, ?_⟩
  · simp [writeCell, hW]
  · simp [setBuf, hW]
  · rw [hunfold, htry]
  · refine ⟨"assignment destination is read-only", ?_⟩
    rw [hunfold, htry]
    simp only []
    have : ((((t.setWriteable b true).put b
        ⟨((t.setWriteable b true).get b).data.set i v, true,
         ((t.setWriteable b true).get b).base,
         ((t.setWriteable b true).get b).allocId⟩).setWriteable b
          (t.get b).writeable).get b).writeable = false := by
      rw [get_setWriteable_same, hW]
    simp [writeCell, this]

/-- Witness for C2 at the concrete locked table, buffer X. -/
theorem tables_are_locked_witness :
    (∃ e, writeCell cLockedTab .x 0 (.num (some 9)) = .error e)
    ∧ (∃ e, setBuf cLockedTab .x cNewBuf = .error e)
    ∧ (unlockedDo false [.x] (tryWrite .x 0 (.num (some 9))) cLockedTab).2 = none
    ∧ (∃ e, writeCell
        (unlockedDo false [.x] (tryWrite .x 0 (.num (some 9))) cLockedTab).1
        .x 0 (.num (some 9)) = .error e) :=
  tables_are_locked cLockedTab .x 0 (.num (some 9)) cNewBuf
    (by decide) (by decide)

/-- C8: when `unlocked(...)` is requested on a set of buffers one of which is
a read-only view whose base cannot be unlocked, the call fails and the lock
state is unchanged on error (no buffer named in the request is left
unlocked); the separate `force_unlocked(...)` scope succeeds on such view
buffers. -/
theorem unlock_view_fails (t : LTable) (bs : List BufId) (b0 : BufId)
    (body : LTable → LTable × Option String) (i : ℕ) (v : Cell)
    (hmem : b0 ∈ bs)
    (hlockedView : (t.get b0).writeable = false ∧ (t.get b0).base.isSome = true) :
    (unlockedDo false bs body t).1 = t
    ∧ (∃ e, (unlockedDo false bs body t).2 = some e)
    ∧ (unlockedDo true bs (tryWrite b0 i v) t).2 = none := by
  have hne : bs.isEmpty = false := by
    cases bs with
    | nil => cases hmem
    | cons c rest => rfl
  have hbl : bufList bs = bs := by simp [bufList, hne]
  have hcond : (bs.any
      (fun b2 => !(t.get b2).writeable && (t.get b2).base.isSome)) = true :=
    List.any_eq_true.mpr ⟨b0, hmem, by rw [hlockedView.1, hlockedView.2]; rfl⟩
  refine ⟨?_, ⟨"the table is a view into another table and cannot be unlocked", ?_⟩, ?_⟩
  · simp [unlockedDo, hbl, hcond]
  · simp [unlockedDo, hbl, hcond]
  · have hget1 : (((bs.foldl (fun s b2 => s.setWriteable b2 true) t)).get b0).writeable
        = true := get_foldl_setW_mem bs t b0 hmem
    simp [unlockedDo, hbl, tryWrite, writeCell, hget1]

/-- Witness for C8 at the concrete table whose Y is a locked view, with the
request naming X and Y. -/
theorem unlock_view_fails_witness :
    (unlockedDo false [.x, .y] (tryWrite .x 0 (.num (some 9))) cViewTab).1 = cViewTab
    ∧ (∃ e, (unlockedDo false [.x, .y] (tryWrite .x 0 (.num (some 9))) cViewTab).2
        = some e)
    ∧ (unlockedDo true [.x, .y] (tryWrite .y 0 (.num (some 9))) cViewTab).2 = none :=
  unlock_view_fails cViewTab [.x, .y] .y (tryWrite .x 0 (.num (some 9))) 0
    (.num (some 9)) (by decide) (by decide)

/-- C3: unpickling a pickled table yields a table whose four buffers are
independently owned (no base), which shares no memory with the original,
whose lock state equals the process-wide LOCKING default in force at
unpickling time (whatever the lock state was at pickling time), and on which
an `unlocked()` scope does not raise. -/
theorem unpickle_spec (t : LTable) (locking : Bool) (fresh : ℕ)
    (hfresh : ∀ id2 ∈ t.memIds, id2 < fresh) :
    (∀ b, ((unpickleT locking fresh (pickleT t)).get b).base = none)
    ∧ (∀ b, ((unpickleT locking fresh (pickleT t)).get b).writeable = !locking)
    ∧ (∀ id2 ∈ (unpickleT locking fresh (pickleT t)).memIds, id2 ∉ t.memIds)
    ∧ (unlockedDo false [] (fun s => (s, none))
        (unpickleT locking fresh (pickleT t))).2 = none := by
  refine ⟨fun b => by cases b <;> rfl, fun b => by cases b <;> rfl, ?_, ?_⟩
  · intro id2 hid2 hmem
    have hlt := hfresh id2 hmem
    have : id2 ∈ [fresh, fresh + 1, fresh + 2, fresh + 3] := by
      simpa [LTable.memIds, Buffer.memIds, unpickleT, LTable.get, pickleT]
        using hid2
    rcases List.mem_cons.mp this with h | h
    · omega
    rcases List.mem_cons.mp h with h | h
    · omega
    rcases List.mem_cons.mp h with h | h
    · omega
    rcases List.mem_cons.mp h with h | h
    · omega
    · cases h
  · simp [unlockedDo, bufList, unpickleT, LTable.get]

/-- Witness for C3 at a concrete table holding a locked view, pickled and
unpickled with LOCKING on and fresh allocation counter 100. -/
theorem unpickle_spec_witness :
    (∀ b, ((unpickleT true 100 (pickleT cViewTab)).get b).base = none)
    ∧ (∀ b, ((unpickleT true 100 (pickleT cViewTab)).get b).writeable = !true)
    ∧ (∀ id2 ∈ (unpickleT true 100 (pickleT cViewTab)).memIds,
        id2 ∉ cViewTab.memIds)
    ∧ (unlockedDo false [] (fun s => (s, none))
        (unpickleT true 100 (pickleT cViewTab))).2 = none :=
  unpickle_spec cViewTab true 100 (by decide)

theorem idxOf?_mem (lab : String) (vals : List String) (h : lab ∈ vals) :
    ∃ c, idxOf? lab vals = some c := by
  induction vals with
  | nil => cases h
  | cons v rest ih =>
    by_cases hv : v = lab
    · exact ⟨0, by simp [idxOf?, hv]⟩
    · have hr : lab ∈ rest := by
        rcases List.mem_cons.mp h with h | h
        · exact absurd h.symm hv
        · exact h
      obtain ⟨c, hc⟩ := ih hr
      exact ⟨c + 1, by simp [idxOf?, hv, hc]⟩

theorem get?_of_idxOf? (lab : String) (vals : List String) (c : ℕ)
    (h : idxOf? lab vals = some c) : vals.get? c = some lab := by
  induction vals generalizing c with
  | nil => cases h
  | cons v rest ih =>
    by_cases hv : v = lab
    · simp only [idxOf?, if_pos hv] at h
      cases h
      simp [hv]
    · simp only [idxOf?, if_neg hv, Option.map_eq_some'] at h
      obtain ⟨c0, hc0, hsucc⟩ := h
      subst hsucc
      simpa using ih c0 hc0

/-- C4: `get_column` with a discrete variable whose value-label sequence is a
reordering or superset of the stored one remaps each stored integer code to
the index of the same label in the requested sequence, a requested label
absent from storage never appears in the output, the missing value stays
missing, and the remapped column is a fresh owned array, for dense and
sparse backing alike. -/
theorem get_column_discrete_remap (storedVals reqVals : List String)
    (backing : ColBacking)
    (hsup : ∀ lab ∈ storedVals, lab ∈ reqVals)
    (hne : reqVals ≠ storedVals) :
    ((getColumnDiscrete storedVals reqVals backing).1
        = remapColumn storedVals reqVals backing.densify)
    ∧ (getColumnDiscrete storedVals reqVals backing).2 = true
    ∧ (∀ code lab, storedVals.get? code = some lab →
        ∃ c, mapCode storedVals reqVals (some code) = some c
          ∧ reqVals.get? c = some lab)
    ∧ (∀ c lab, reqVals.get? c = some lab → lab ∉ storedVals →
        some c ∉ (getColumnDiscrete storedVals reqVals backing).1)
    ∧ mapCode storedVals reqVals none = none := by
  have h1 : (getColumnDiscrete storedVals reqVals backing).1
      = remapColumn storedVals reqVals backing.densify := by
    simp [getColumnDiscrete, hne]
  refine ⟨h1, by simp [getColumnDiscrete, hne], ?_, ?_, rfl⟩
  · intro code lab hcode
    have hlab : lab ∈ reqVals := hsup lab (List.get?_mem hcode)
    obtain ⟨c, hc⟩ := idxOf?_mem lab reqVals hlab
    have hcode2 : storedVals[code]? = some lab := by
      rw [← List.get?_eq_getElem?]
      exact hcode
    exact ⟨c, by simp [mapCode, hcode2, hc], get?_of_idxOf? lab reqVals c hc⟩
  · intro c lab hc hlab hmem
    rw [h1] at hmem
    simp only [remapColumn, List.mem_map] at hmem
    obtain ⟨a, _, ha⟩ := hmem
    simp only [mapCode, Option.bind_eq_some] at ha
    obtain ⟨code, _, lab2, hlab2, hidx⟩ := ha
    have := get?_of_idxOf? lab2 reqVals c hidx
    rw [hc] at this
    cases this
    exact hlab (List.get?_mem hlab2)

/-- Witness for C4: stored labels ("a","b"), requested ("a","c","b"), on a
dense and on a sparse backing of the codes [0, 0, 1]; together with the
concrete evaluation showing the stored code 1 for "b" becomes 2. -/
theorem get_column_discrete_remap_witness :
    (((getColumnDiscrete ["a", "b"] ["a", "c", "b"]
        (.dense [some 0, some 0, some 1])).1
      = remapColumn ["a", "b"] ["a", "c", "b"]
          (ColBacking.dense [some 0, some 0, some 1]).densify)
     ∧ (getColumnDiscrete ["a", "b"] ["a", "c", "b"]
          (.dense [some 0, some 0, some 1])).2 = true
     ∧ (∀ code lab, (["a", "b"] : List String).get? code = some lab →
         ∃ c, mapCode ["a", "b"] ["a", "c", "b"] (some code) = some c
           ∧ (["a", "c", "b"] : List String).get? c = some lab)
     ∧ (∀ c lab, (["a", "c", "b"] : List String).get? c = some lab →
         lab ∉ (["a", "b"] : List String) →
         some c ∉ (getColumnDiscrete ["a", "b"] ["a", "c", "b"]
            (.dense [some 0, some 0, some 1])).1)
     ∧ mapCode ["a", "b"] ["a", "c", "b"] none = none)
    ∧ (getColumnDiscrete ["a", "b"] ["a", "c", "b"]
        (.dense [some 0, some 0, some 1])).1 = [some 0, some 0, some 2]
    ∧ (getColumnDiscrete ["a", "b"] ["a", "c", "b"]
        (.sparse 3 [(2, some 1)])).1 = [some 0, some 0, some 2] :=
  ⟨get_column_discrete_remap ["a", "b"] ["a", "c", "b"]
      (.dense [some 0, some 0, some 1]) (by decide) (by decide),
   by decide, by decide⟩

/-- C7: a FilterContinuous predicate with operator GreaterEqual and threshold
0 selects exactly the rows whose value satisfies the comparison; a NaN value
is never selected by GreaterEqual or by any comparison operator other than
the IsDefined check; and on the column [0, 0, NaN, 1, 1, 1, 1] it selects
the rows at indices 0, 1, 3, 4, 5, 6. -/
theorem filter_continuous_ge (col : List (Option ℚ)) :
    (∀ i, i ∈ selectRows (fcMatch .greaterEqual 0 0) col ↔
      (i < col.length ∧ ∃ q, col.getD i none = some q ∧ 0 ≤ q))
    ∧ (∀ (op : FCOp) (ref rmax : ℚ), op ≠ .isDefinedOp →
        fcMatch op ref rmax none = false)
    ∧ selectRows (fcMatch .greaterEqual 0 0)
        [some 0, some 0, none, some 1, some 1, some 1, some 1]
      = [0, 1, 3, 4, 5, 6] := by
  refine ⟨?_, fun _ _ _ _ => rfl, by decide⟩
  intro i
  simp only [selectRows, List.mem_filter, List.mem_range]
  constructor
  · rintro ⟨hi, hp⟩
    refine ⟨hi, ?_⟩
    cases hc : col.getD i none with
    | none => rw [hc] at hp; exact absurd hp (by simp [fcMatch])
    | some q =>
      rw [hc] at hp
      simp only [fcMatch, decide_eq_true_eq] at hp
      exact ⟨q, rfl, hp⟩
  · rintro ⟨hi, q, hq, hge⟩
    exact ⟨hi, by rw [hq]; simp [fcMatch, hge]⟩

/-- C9: a FilterDiscrete predicate may be constructed without any table; it
is validated only when invoked: applied where its target discrete variable
cannot be resolved (column `none` never resolves to a discrete variable) it
raises ValueError on every table rather than silently selecting no rows,
while the same apply on a name that does resolve to a discrete variable
succeeds. -/
theorem filter_discrete_unresolvable (vs : List String) (t : Table) :
    applyFilterDiscrete ⟨none, vs⟩ t = .error "Invalid filter"
    ∧ (∃ f : FilterDiscreteP, f.column = none ∧ f.accepted = vs)
    ∧ (∀ (nm : String) (t2 : Table) (v : Variable) (blk j : ℕ),
        findVar t2.domain nm = some (v, blk, j) → v.kind = .discrete →
        ∃ sel, applyFilterDiscrete ⟨some nm, vs⟩ t2 = .ok sel) := by
  refine ⟨rfl, ⟨⟨none, vs⟩, rfl, rfl⟩, ?_⟩
  intro nm t2 v blk j hfind hkind
  refine ⟨(List.range t2.X.rows).filter (fun i =>
    (vs.filterMap (fun lab => idxOf? lab v.values)).any (fun c =>
      ((blockOf t2 blk).col j).getD i (.num none) = .num (some (c : ℚ)))), ?_⟩
  simp [applyFilterDiscrete, hfind, hkind]

theorem dictInsert_fresh {α : Type} (d : List (String × α)) (k : String)
    (v : α) (h : d.any (fun p => p.1 = k) = false) :
    dictInsert d k v = d ++ [(k, v)] := by
  simp [dictInsert, h]

theorem tagFrom_map_fst (n : ℕ) (l : List String) :
    (tagFrom n l).map Prod.fst = l := by
  induction l generalizing n with
  | nil => rfl
  | cons s rest ih => simp [tagFrom, ih]

theorem tagFrom_snd_ge (n : ℕ) (l : List String) :
    ∀ p ∈ tagFrom n l, n ≤ p.2 := by
  induction l generalizing n with
  | nil => intro p hp; cases hp
  | cons s rest ih =>
    intro p hp
    rcases List.mem_cons.mp hp with h | h
    · subst h; exact le_refl n
    · exact le_trans (Nat.le_succ n) (ih (n + 1) p h)

theorem regNew_foldl (subs : List String) (reg : List (String × ℕ))
    (nid : ℕ) (rid : Option ℕ)
    (hfresh : ∀ s ∈ subs, reg.any (fun p => p.1 = s) = false)
    (hnd : subs.Nodup) :
    subs.foldl regNew ⟨some reg, nid, rid⟩
      = ⟨some (reg ++ tagFrom nid subs), nid + subs.length, rid⟩ := by
  induction subs generalizing reg nid with
  | nil => simp [tagFrom]
  | cons s rest ih =>
    simp only [List.foldl_cons]
    have h1 : regNew ⟨some reg, nid, rid⟩ s
        = ⟨some (reg ++ [(s, nid)]), nid + 1, rid⟩ := by
      simp only [regNew]
      rw [dictInsert_fresh reg s nid (hfresh s (List.mem_cons_self s rest))]
    rw [h1, ih (reg ++ [(s, nid)]) (nid + 1) ?_ (List.Nodup.of_cons hnd)]
    · have htag : tagFrom nid (s :: rest) = (s, nid) :: tagFrom (nid + 1) rest := rfl
      rw [htag]
      have : reg ++ [(s, nid)] ++ tagFrom (nid + 1) rest
          = reg ++ ((s, nid) :: tagFrom (nid + 1) rest) := by
        simp
      rw [this]
      have : nid + 1 + rest.length = nid + (rest.length + 1) := by omega
      rw [this]
      rfl
    · intro s2 hs2
      have hregpart := hfresh s2 (List.mem_cons_of_mem s hs2)
      have hne2 : ¬(s = s2) := by
        intro he
        exact (List.nodup_cons.mp hnd).1 (he ▸ hs2)
      simp [List.any_append, hregpart, hne2]

/-- C10 counterexample: defining two subclasses that share the class name
"A" leaves a single registry entry, so iterating the root yields ["A"], not
the two-element name sequence the claim requires. -/
theorem registry_duplicate_name_counterexample :
    regIter (regRun ["Root", "A", "A"]) = ["A"]
    ∧ regIter (regRun ["Root", "A", "A"]) ≠ ["A", "A"] := by
  refine ⟨by decide, by decide⟩

/-- C10 amended: the first class created with the Registry metaclass (the
root) gets an empty registry and is itself never a value in it; every class
subsequently derived is stored in that shared registry under its class name
(a repeated name overwrites the stored class); hence after defining any
sequence of distinctly-named subclasses, iterating the root yields exactly
their names, in definition order. -/
theorem registry_subclasses (root : String) (subs : List String)
    (hnd : subs.Nodup) :
    regIter (regRun (root :: subs)) = subs
    ∧ (regRun (root :: subs)).registry = some (tagFrom 1 subs)
    ∧ (regRun (root :: subs)).rootId = some 0
    ∧ (∀ p ∈ (regRun (root :: subs)).registry.getD [], p.2 ≠ 0)
    ∧ (regNew ⟨none, 0, none⟩ root).registry = some [] := by
  have h0 : regRun (root :: subs) = subs.foldl regNew ⟨some [], 1, some 0⟩ := by
    simp [regRun, List.foldl_cons, regNew]
  have h1 := regNew_foldl subs [] 1 (some 0) (fun _ _ => rfl) hnd
  rw [h0, h1]
  refine ⟨?_, by simp, rfl, ?_, rfl⟩
  · simp [regIter, tagFrom_map_fst]
  · intro p hp
    simp only [List.nil_append, Option.getD_some] at hp
    have := tagFrom_snd_ge 1 subs p hp
    omega

/-- Witness for C10's amended statement: root "Root" with subclasses "A" and
"B". -/
theorem registry_subclasses_witness :
    regIter (regRun ["Root", "A", "B"]) = ["A", "B"]
    ∧ (regRun ["Root", "A", "B"]).registry = some (tagFrom 1 ["A", "B"])
    ∧ (regRun ["Root", "A", "B"]).rootId = some 0
    ∧ (∀ p ∈ (regRun ["Root", "A", "B"]).registry.getD [], p.2 ≠ 0)
    ∧ (regNew ⟨none, 0, none⟩ "Root").registry = some [] :=
  registry_subclasses "Root" ["A", "B"] (by decide)

end Orange
